import Mathlib

/-!
Verification of the MCMC posterior sampling core of the `sbi` repository.

The development shallowly embeds the two source files

  * `src/sbi/inference/posteriors/mcmc_posterior.py` (`MCMCPosterior`)
  * `src/sbi/inference/potentials/posterior_based_potential.py` (`PosteriorPotential`)

Tensors are modelled as lists of rows of rational scalars.  The sampler
internals that live outside the provided sources (`SliceSampler`,
`SliceSamplerVectorized`, `prior_init`, `sir`, `IterateParameters`, the Pyro
`MCMC` driver and the `theta_transform`) are abstracted as oracles supplying
the raw draws; the orchestration arithmetic (warmup, thinning, flattening,
truncation, state retention, dispatch and error behaviour) is translated
faithfully from the source.
-/

namespace SbiVerify

/-- Scalar tensor entries (floats in the source) are modelled as rationals. -/
abbrev Val := ℚ

/-- A parameter vector θ — one row of a 2-D tensor. -/
abbrev Vec := List Val

/-- A 2-D tensor of shape `(rows, dim)`, as a list of rows. -/
abbrev Mat := List Vec

/-- The Python exceptions that the modelled code paths can raise. -/
inductive PyError
  | notImplementedError
  | nameError
  | attributeError
  | assertionError
  | indexError
  | runtimeError
  deriving DecidableEq

/-- A row of width `d` whose entries are produced by `f`. -/
def mkRow (d : ℕ) (f : ℕ → Val) : Vec := (List.range d).map f

/-- `m.shape[1]` of a rectangular 2-D tensor: the width of its first row
(`0` for an empty tensor). -/
def tensorWidth (m : Mat) : ℕ := ((m.head?).map List.length).getD 0

/-! ### `posterior_based_potential.py` -/

/-- An argument passed to `PosteriorPotential.__call__`: either a single
unbatched 1-D θ or a batch of them. -/
inductive ThetaInput
  | unbatched (v : Vec)
  | batched (m : Mat)
  deriving DecidableEq

/-- Modelled from the spec: `sbi.utils.torchutils.ensure_theta_batched` is not
part of the provided sources.  Per the spec's potential interface ("a mapping
from a batch of parameter vectors ... to a batch of scalar unnormalized
log-densities"), a 1-D θ is promoted to a batch of one row and a batch is
passed through unchanged. -/
def ensure_theta_batched : ThetaInput → Mat
  | .unbatched v => [v]
  | .batched m => m

/-- State of `PosteriorPotential` (file `posterior_based_potential.py`).
`log_prob` stands for `posterior_model.log_prob(theta, context=x)`;
`prior_support` stands for the per-row support predicate
`within_support(self.prior, theta)`; `x_o` is the conditioned observation. -/
structure PosteriorPotential where
  log_prob : Vec → Vec → Val
  prior_support : Vec → Bool
  x_o : Vec

/-- `PosteriorPotential.__call__` (lines 76–105): batch θ, pair every row with
`x_o` (`match_theta_and_x_batch_shapes` repeats the single observation), then
evaluate the posterior model and force the value to `-inf` (modelled as `⊥` in
`WithBot`) outside the prior support via `torch.where`. -/
def PosteriorPotential.call (P : PosteriorPotential) (theta : ThetaInput) :
    List (WithBot Val) :=
  (ensure_theta_batched theta).map (fun t =>
    if P.prior_support t then ((P.log_prob t P.x_o : Val) : WithBot Val) else ⊥)

/-! ### Oracles for the components outside the provided sources -/

/-- Oracles supplying the raw numeric behaviour of the collaborators that are
not part of the provided sources.  `dim` is the parameter dimension.
`priorDraw i` / `sirDraw i` give the `i`-th call of the `prior` / `sir`
chain-initialization generator (already transformed to unconstrained space).
`seqGen c i` is the `i`-th retained draw of chain `c`'s sequential
`SliceSampler` stream (warmup draws included; the sampler thins internally).
`vecTraj c s` is step `s` of chain `c` in `SliceSamplerVectorized.run`.
`pyroDraw i` is the `i`-th row of the chain-flattened Pyro `get_samples`
result.  `tInv` is `theta_transform.inv`, applied row-wise. -/
structure Oracles where
  dim : ℕ
  priorDraw : ℕ → ℕ → Val
  sirDraw : ℕ → ℕ → Val
  seqGen : ℕ → ℕ → ℕ → Val
  vecTraj : ℕ → ℕ → ℕ → Val
  pyroDraw : ℕ → ℕ → Val
  tInv : Vec → Vec

/-- The zero-argument chain-initialization function returned by
`_build_mcmc_init_fn` (lines 207–237). -/
inductive InitFn
  | priorInit
  | sirInit
  | iterateParameters (saved : Mat)
  deriving DecidableEq

/-- The `i`-th invocation of an initialization function.  `prior_init` and
`sir` draw fresh vectors (oracle-supplied).  Modelled from the spec:
`IterateParameters` is not part of the provided sources; per the spec it
replays the saved per-chain states, "cycling through" them. -/
def callInitFn (E : Oracles) (fn : InitFn) (i : ℕ) : Vec :=
  match fn with
  | .priorInit => mkRow E.dim (E.priorDraw i)
  | .sirInit => mkRow E.dim (E.sirDraw i)
  | .iterateParameters saved => saved.getD (i % saved.length) []

/-! ### Python slicing `l[::k]` -/

/-- Helper for `sliceStep`: `c` counts the elements still to skip before the
next kept element. -/
def sliceStepAux {α : Type} (k : ℕ) : ℕ → List α → List α
  | _, [] => []
  | 0, x :: xs => x :: sliceStepAux k (k - 1) xs
  | c + 1, _ :: xs => sliceStepAux k c xs

/-- Python's extended slice `l[::k]`: every `k`-th element of `l`, starting
with the first (indices `0, k, 2k, ...`), for `k ≥ 1`. -/
def sliceStep {α : Type} (k : ℕ) (l : List α) : List α := sliceStepAux k 0 l

/-! ### Substring test (`"slice_np" in method`) -/

/-- Whether `n` is a leading segment of `h`. -/
def listStartsWith : List Char → List Char → Bool
  | [], _ => true
  | _ :: _, [] => false
  | a :: as, b :: bs => if a = b then listStartsWith as bs else false

/-- Whether `n` occurs contiguously inside `h`. -/
def listContainsSub (needle : List Char) : List Char → Bool
  | [] => listStartsWith needle []
  | b :: bs => listStartsWith needle (b :: bs) || listContainsSub needle bs

/-- Python's `needle in hay` on strings. -/
def strContainsSub (needle hay : String) : Bool :=
  listContainsSub needle.toList hay.toList

/-! ### `mcmc_posterior.py`: the `MCMCPosterior` facade -/

/-- The mutable state of an `MCMCPosterior` instance.  `mcmc_method` models
the `_mcmc_method` attribute written by `set_mcmc_method` (absent until first
set); `mcmc_init_params` models the `_mcmc_init_params` attribute written by
`_slice_np_mcmc` (absent until first written, hence `Option`). -/
structure MCMCPosterior where
  method : String
  thin : ℕ
  warmup_steps : ℕ
  num_chains : ℕ
  init_strategy : String
  mcmc_method : Option String
  mcmc_init_params : Option Mat
  deriving DecidableEq

/-- `MCMCPosterior.__init__` (lines 48–127).  The method identifier is vetted
at construction time: `"slice"`, `"hmc"`/`"nuts"`, or any string containing
`"slice_np"` as a substring are accepted (the branches differ only in the
`track_gradients`/`pyro` flags, which `sample` recomputes); anything else
raises `NotImplementedError` (line 112). -/
def MCMCPosterior.init (method : String) (thin warmup_steps num_chains : ℕ)
    (init_strategy : String) : Except PyError MCMCPosterior :=
  if method = "slice" then
    .ok ⟨method, thin, warmup_steps, num_chains, init_strategy, none, none⟩
  else if method = "hmc" ∨ method = "nuts" then
    .ok ⟨method, thin, warmup_steps, num_chains, init_strategy, none, none⟩
  else if strContainsSub "slice_np" method then
    .ok ⟨method, thin, warmup_steps, num_chains, init_strategy, none, none⟩
  else .error .notImplementedError

/-- `set_mcmc_method` (lines 139–149): stores the argument in the
`_mcmc_method` attribute and returns the posterior. -/
def MCMCPosterior.set_mcmc_method (p : MCMCPosterior) (method : String) :
    MCMCPosterior :=
  { p with mcmc_method := some method }

/-- `_build_mcmc_init_fn` (lines 207–237).  For the `latest_sample` strategy,
reading the `_mcmc_init_params` attribute raises `AttributeError` when no
sampling call has written it yet.  Unknown strategies raise
`NotImplementedError` (line 237). -/
def MCMCPosterior.build_mcmc_init_fn (p : MCMCPosterior) (init_strategy : String) :
    Except PyError InitFn :=
  if init_strategy = "prior" then .ok .priorInit
  else if init_strategy = "sir" then .ok .sirInit
  else if init_strategy = "latest_sample" then
    match p.mcmc_init_params with
    | some saved => .ok (.iterateParameters saved)
    | none => .error .attributeError
  else .error .notImplementedError

/-- The per-chain retained draws of the sequential branch of `_slice_np_mcmc`
(lines 268–283): chain `c` discards `warmup_steps` draws of its `SliceSampler`
and keeps the next `ceil(num_samples / num_chains)` (the sampler applies
`thin` internally, so the oracle stream is the retained-draw stream). -/
def seqChains (E : Oracles) (num_samples : ℕ) (initial_params : Mat)
    (warmup_steps : ℕ) : List Mat :=
  (List.range initial_params.length).map (fun c =>
    (List.range ((num_samples + initial_params.length - 1) / initial_params.length)).map
      (fun i => mkRow (tensorWidth initial_params) (E.seqGen c (warmup_steps + i))))

/-- The per-chain kept draws of the vectorized branch of `_slice_np_mcmc`
(lines 284–296): run every chain for `warmup_steps * thin +
ceil(num_samples * thin / num_chains)` steps, discard the first
`warmup_steps * thin` steps, and keep every `thin`-th remaining step. -/
def vecChains (E : Oracles) (num_samples : ℕ) (initial_params : Mat)
    (thin warmup_steps : ℕ) : List Mat :=
  let warmup_ := warmup_steps * thin
  let num_samples_ := (num_samples * thin + initial_params.length - 1) / initial_params.length
  (List.range initial_params.length).map (fun c =>
    sliceStep thin (((List.range (warmup_ + num_samples_)).map
      (fun s => mkRow (tensorWidth initial_params) (E.vecTraj c s))).drop warmup_))

/-- `samples[:, -1, :]`: the final timestep of every chain.  Indexing `-1`
raises `IndexError` when a chain's time dimension is empty. -/
def allLastRows : List Mat → Option Mat
  | [] => some []
  | ch :: rest =>
    match ch.getLast?, allLastRows rest with
    | some v, some r => some (v :: r)
    | _, _ => none

/-- `_slice_np_mcmc` (lines 239–304): run the chains (sequential or
vectorized branch), retain `samples[:, -1, :]` as the next
`_mcmc_init_params`, flatten chain-major (`reshape(-1, dim)`), truncate to
`num_samples` rows and assert that exactly `num_samples` rows remain.
Returns the rows together with the retained per-chain states. -/
def slice_np_mcmc (E : Oracles) (num_samples : ℕ) (initial_params : Mat)
    (thin warmup_steps : ℕ) (vectorized : Bool) : Except PyError (Mat × Mat) :=
  let chains :=
    if vectorized then vecChains E num_samples initial_params thin warmup_steps
    else seqChains E num_samples initial_params warmup_steps
  match allLastRows chains with
  | none => .error .indexError
  | some lastRows =>
    let samples := (chains.flatten).take num_samples
    if samples.length = num_samples then .ok (samples, lastRows)
    else .error .assertionError

/-- `_pyro_mcmc` (lines 306–354): the external kernel is asked for
`(thin * num_samples) // num_chains + num_chains` draws per chain; the
chain-flattened result (`get_samples` + `reshape(-1, dim)`) is subsampled
every `thin`-th row (`samples[::thin]`), truncated to `num_samples` rows
(`[:num_samples]`) and the row count is asserted.  No state is retained. -/
def pyro_mcmc (E : Oracles) (num_samples : ℕ) (initial_params : Mat)
    (mcmc_method : String) (thin warmup_steps num_chains : ℕ) :
    Except PyError Mat :=
  let dim := tensorWidth initial_params
  let perChain := (thin * num_samples) / num_chains + num_chains
  let flatRows := (List.range (num_chains * perChain)).map
    (fun i => mkRow dim (E.pyroDraw i))
  let samples := (sliceStep thin flatRows).take num_samples
  if samples.length = num_samples then .ok samples else .error .assertionError

/-- The dispatch inside `sample` (lines 178–202): the slice-numpy backends go
through `_slice_np_mcmc` (which additionally yields the retained per-chain
states), the Pyro kernels through `_pyro_mcmc` (which retains nothing), and
any other identifier raises `NameError` (line 202). -/
def sampleDispatch (E : Oracles) (method : String)
    (thin warmup_steps num_chains num_samples : ℕ) (initial_params : Mat) :
    Except PyError (Mat × Option Mat) :=
  if method = "slice_np" ∨ method = "slice_np_vectorized" then
    (slice_np_mcmc E num_samples initial_params thin warmup_steps
      (method = "slice_np_vectorized")).map (fun r => (r.1, some r.2))
  else if method = "hmc" ∨ method = "nuts" ∨ method = "slice" then
    (pyro_mcmc E num_samples initial_params method thin warmup_steps
      num_chains).map (fun s => (s, none))
  else .error .nameError

/-- Writing back the `_mcmc_init_params` attribute: only the slice-numpy
branch produces a value; otherwise the attribute keeps its old content. -/
def updateState (p : MCMCPosterior) : Option Mat → MCMCPosterior
  | some m => { p with mcmc_init_params := some m }
  | none => p

/-- `samples.reshape((*sample_shape, -1))` (line 205) on a flat set of rows:
the trailing `-1` is inferred, which requires the product of the explicit
dimensions to be nonzero and to divide the element count; otherwise torch
raises `RuntimeError`.  Returns the result shape with the flat data. -/
def reshape_trailing (rows : Mat) (sample_shape : List ℕ) :
    Option (List ℕ × Vec) :=
  if sample_shape.prod ≠ 0 ∧ rows.flatten.length % sample_shape.prod = 0 then
    some (sample_shape ++ [rows.flatten.length / sample_shape.prod], rows.flatten)
  else none

/-- `sample` (lines 151–205).  Note: the source calls `_build_mcmc_init_fn`
without passing `init_strategy` (lines 171–173), so Python substitutes the
default `"prior"` — the configured `self.init_strategy` is never consulted.
The conditioning data `x` is bound onto the potential (line 169) and only
influences the oracle-supplied draws, so it is not threaded explicitly.
`num_samples` is `torch.Size(sample_shape).numel()`; the unconstrained
samples are mapped through `theta_transform.inv` and reshaped to
`(*sample_shape, -1)`. -/
def MCMCPosterior.sample (p : MCMCPosterior) (E : Oracles)
    (sample_shape : List ℕ) :
    Except PyError ((List ℕ × Vec) × MCMCPosterior) :=
  match p.build_mcmc_init_fn "prior" with
  | .error e => .error e
  | .ok init_fn =>
    let initial_params := (List.range p.num_chains).map (fun i => callInitFn E init_fn i)
    let num_samples := sample_shape.prod
    match sampleDispatch E p.method p.thin p.warmup_steps p.num_chains
        num_samples initial_params with
    | .error e => .error e
    | .ok (transformed_samples, written) =>
      let samples := transformed_samples.map E.tInv
      match reshape_trailing samples sample_shape with
      | none => .error .runtimeError
      | some t => .ok (t, updateState p written)

deriving instance DecidableEq for Except

/-! ### Concrete instances used for evaluation -/

/-- A concrete one-dimensional oracle family with constant draws, used to
evaluate the embedded code on closed inputs.  The sequential slice stream
yields `1`, the vectorized trajectory `2` and the Pyro draws `5`, so the
backends are observably distinct. -/
def E0 : Oracles where
  dim := 1
  priorDraw := fun _ _ => 0
  sirDraw := fun _ _ => 3
  seqGen := fun _ _ _ => 1
  vecTraj := fun _ _ _ => 2
  pyroDraw := fun _ _ => 5
  tInv := id

/-- A fresh posterior configured with `init_strategy="latest_sample"`,
`method="slice_np"`, `thin=1`, `warmup_steps=0`, `num_chains=1`. -/
def Pls : MCMCPosterior := ⟨"slice_np", 1, 0, 1, "latest_sample", none, none⟩

/-- As `Pls` but with `init_strategy="prior"`. -/
def Ppr : MCMCPosterior := ⟨"slice_np", 1, 0, 1, "prior", none, none⟩

/-- A fresh sequential slice-numpy posterior with `thin=2`, `warmup_steps=1`,
`num_chains=1`. -/
def Pseq : MCMCPosterior := ⟨"slice_np", 2, 1, 1, "prior", none, none⟩

/-- As `Pseq` but with the vectorized backend. -/
def Pvec : MCMCPosterior := ⟨"slice_np_vectorized", 2, 1, 1, "prior", none, none⟩

/-- A fresh Pyro-slice posterior with `thin=1`, `warmup_steps=0`,
`num_chains=1`. -/
def Ppyro : MCMCPosterior := ⟨"slice", 1, 0, 1, "prior", none, none⟩

/-- A concrete potential: the model log-probability is constantly `5`; the
prior support contains exactly the vectors whose first entry is `1`. -/
def PP0 : PosteriorPotential where
  log_prob := fun _ _ => 5
  prior_support := fun v => v.head? = some 1
  x_o := [0]

/-! ### Lemmas about `sliceStep` -/

lemma sliceStepAux_eq_drop {α : Type} (k : ℕ) :
    ∀ (l : List α) (c : ℕ), sliceStepAux k c l = sliceStepAux k 0 (l.drop c) := by
  intro l
  induction l with
  | nil => intro c; cases c <;> simp [sliceStepAux]
  | cons x xs ih =>
    intro c
    cases c with
    | zero => simp
    | succ c => simpa [sliceStepAux] using ih c

lemma sliceStep_nil {α : Type} (k : ℕ) : sliceStep k ([] : List α) = [] := rfl

lemma sliceStep_cons {α : Type} (k : ℕ) (x : α) (xs : List α) :
    sliceStep k (x :: xs) = x :: sliceStep k (xs.drop (k - 1)) := by
  show sliceStepAux k 0 (x :: xs) = x :: sliceStepAux k 0 (xs.drop (k - 1))
  rw [show sliceStepAux k 0 (x :: xs) = x :: sliceStepAux k (k - 1) xs from rfl,
    sliceStepAux_eq_drop]

lemma ceil_le_mul (a k : ℕ) (hk : 1 ≤ k) : a ≤ ((a + k - 1) / k) * k := by
  have h1 := Nat.div_add_mod (a + k - 1) k
  have h2 : (a + k - 1) % k < k := Nat.mod_lt _ (by omega)
  rw [Nat.mul_comm]
  omega

lemma div_cancel_sub_add (m k : ℕ) (hk : 1 ≤ k) :
    (m - (k - 1) + k - 1) / k = m / k := by
  rcases le_or_lt (k - 1) m with h | h
  · have he : m - (k - 1) + k - 1 = m := by omega
    rw [he]
  · have h1 : m - (k - 1) = 0 := by omega
    rw [h1, Nat.div_eq_of_lt (by omega), Nat.div_eq_of_lt (by omega)]

lemma sliceStep_length_fuel {α : Type} (k : ℕ) (hk : 1 ≤ k) :
    ∀ (n : ℕ) (l : List α), l.length ≤ n →
      (sliceStep k l).length = (l.length + k - 1) / k := by
  intro n
  induction n with
  | zero =>
    intro l hl
    have he : l = [] := List.eq_nil_of_length_eq_zero (by omega)
    subst he
    rw [sliceStep_nil]
    simp only [List.length_nil]
    rw [Nat.div_eq_of_lt (by omega)]
  | succ n ih =>
    intro l hl
    cases l with
    | nil =>
      rw [sliceStep_nil]
      simp only [List.length_nil]
      rw [Nat.div_eq_of_lt (by omega)]
    | cons x xs =>
      rw [sliceStep_cons]
      simp only [List.length_cons]
      have hd : (xs.drop (k - 1)).length = xs.length - (k - 1) :=
        List.length_drop (k - 1) xs
      rw [ih (xs.drop (k - 1)) (by rw [hd]; simp only [List.length_cons] at hl; omega)]
      rw [hd, div_cancel_sub_add xs.length k hk]
      have he : xs.length + 1 + k - 1 = xs.length + k := by omega
      rw [he, Nat.add_div_right _ (by omega)]

lemma sliceStep_length {α : Type} (k : ℕ) (hk : 1 ≤ k) (l : List α) :
    (sliceStep k l).length = (l.length + k - 1) / k :=
  sliceStep_length_fuel k hk l.length l le_rfl

lemma sliceStep_getElem_fuel {α : Type} (k : ℕ) (hk : 1 ≤ k) :
    ∀ (n : ℕ) (l : List α) (i : ℕ), l.length ≤ n →
      (sliceStep k l)[i]? = l[i * k]? := by
  intro n
  induction n with
  | zero =>
    intro l i hl
    have he : l = [] := List.eq_nil_of_length_eq_zero (by omega)
    subst he
    simp [sliceStep_nil]
  | succ n ih =>
    intro l i hl
    cases l with
    | nil => simp [sliceStep_nil]
    | cons x xs =>
      rw [sliceStep_cons]
      cases i with
      | zero => simp
      | succ i =>
        have e1 : (i + 1) * k = (k - 1 + i * k) + 1 := by
          rw [Nat.succ_mul]
          omega
        rw [e1, List.getElem?_cons_succ, List.getElem?_cons_succ,
          ih (xs.drop (k - 1)) i
            (by simp only [List.length_drop, List.length_cons] at hl ⊢; omega),
          List.getElem?_drop]

lemma sliceStep_getElem {α : Type} (k : ℕ) (hk : 1 ≤ k) (l : List α) (i : ℕ) :
    (sliceStep k l)[i]? = l[i * k]? :=
  sliceStep_getElem_fuel k hk l.length l i le_rfl

lemma sliceStep_mem_fuel {α : Type} (k : ℕ) :
    ∀ (n : ℕ) (l : List α) (v : α), l.length ≤ n → v ∈ sliceStep k l → v ∈ l := by
  intro n
  induction n with
  | zero =>
    intro l v hl hv
    have he : l = [] := List.eq_nil_of_length_eq_zero (by omega)
    subst he
    simpa [sliceStep_nil] using hv
  | succ n ih =>
    intro l v hl hv
    cases l with
    | nil => simpa [sliceStep_nil] using hv
    | cons x xs =>
      rw [sliceStep_cons] at hv
      rcases List.mem_cons.mp hv with rfl | hv
      · exact List.mem_cons_self _ _
      · refine List.mem_cons_of_mem _ (List.drop_subset (k - 1) xs ?_)
        exact ih (xs.drop (k - 1)) v
          (by simp only [List.length_drop, List.length_cons] at hl ⊢; omega) hv

lemma sliceStep_mem {α : Type} (k : ℕ) (l : List α) (v : α)
    (hv : v ∈ sliceStep k l) : v ∈ l :=
  sliceStep_mem_fuel k l.length l v le_rfl hv

lemma mul_lt_of_lt_ceil {i m t : ℕ} (ht : 1 ≤ t) (h : i < (m + t - 1) / t) :
    i * t < m := by
  by_contra hc
  push_neg at hc
  have h2 : (m + t - 1) / t ≤ (i * t + t - 1) / t := Nat.div_le_div_right (by omega)
  have h3 : (i * t + t - 1) / t = i := by
    have e : i * t + t - 1 = t * i + (t - 1) := by rw [Nat.mul_comm]; omega
    rw [e, Nat.mul_add_div (by omega), Nat.div_eq_of_lt (by omega)]
    omega
  omega

lemma lt_ceil_of_mul_lt {i m t : ℕ} (ht : 1 ≤ t) (h : i * t < m) :
    i < (m + t - 1) / t := by
  have h2 : m ≤ ((m + t - 1) / t) * t := ceil_le_mul m t ht
  have h3 : i * t < ((m + t - 1) / t) * t := by omega
  exact lt_of_mul_lt_mul_right h3 (Nat.zero_le t)

lemma sliceStep_drop_range_map {α : Type} (t W M : ℕ) (ht : 1 ≤ t) (f : ℕ → α) :
    sliceStep t (((List.range (W + M)).map f).drop W)
      = (List.range ((M + t - 1) / t)).map (fun i => f (W + i * t)) := by
  apply List.ext_getElem?
  intro i
  rw [sliceStep_getElem t ht _ i, List.getElem?_drop, List.getElem?_map,
    List.getElem?_map]
  rcases Nat.lt_or_ge i ((M + t - 1) / t) with hi | hi
  · have hm : i * t < M := mul_lt_of_lt_ceil ht hi
    rw [List.getElem?_range (by omega), List.getElem?_range hi]
    rfl
  · have hm : ¬ i * t < M := by
      intro hcon
      exact absurd (lt_ceil_of_mul_lt ht hcon) (by omega)
    rw [List.getElem?_eq_none (by simp; omega),
      List.getElem?_eq_none (by simp; omega)]
    rfl

/-! ### Lemmas about `flatten` over uniform-length rows -/

lemma flatten_length_uniform {α : Type} (K : ℕ) :
    ∀ (L : List (List α)), (∀ x ∈ L, x.length = K) →
      L.flatten.length = L.length * K := by
  intro L
  induction L with
  | nil => simp
  | cons a L ih =>
    intro h
    rw [List.flatten_cons, List.length_append,
      ih (fun x hx => h x (List.mem_cons_of_mem _ hx)),
      h a (List.mem_cons_self _ _), List.length_cons, Nat.succ_mul]
    omega

lemma flatten_getElem_uniform {α : Type} (B : ℕ) (hB : 1 ≤ B) :
    ∀ (L : List (List α)) (j : ℕ), (∀ x ∈ L, x.length = B) →
      L.flatten[j]? = (L[j / B]?).bind (fun x => x[j % B]?) := by
  intro L
  induction L with
  | nil => intro j h; simp
  | cons a L ih =>
    intro j h
    have ha : a.length = B := h a (List.mem_cons_self _ _)
    rcases Nat.lt_or_ge j B with hlt | hge
    · rw [List.flatten_cons, List.getElem?_append_left (by omega),
        Nat.div_eq_of_lt hlt, Nat.mod_eq_of_lt hlt]
      simp
    · obtain ⟨m, rfl⟩ : ∃ m, j = m + B := ⟨j - B, by omega⟩
      rw [List.flatten_cons, List.getElem?_append_right (by omega), ha,
        show m + B - B = m by omega,
        ih m (fun x hx => h x (List.mem_cons_of_mem _ hx)),
        Nat.add_div_right _ (by omega), Nat.add_mod_right]
      simp

/-! ### Lemmas about `allLastRows` -/

lemma allLastRows_some {chains : List Mat} (h : ∀ ch ∈ chains, ch ≠ []) :
    ∃ r, allLastRows chains = some r ∧ r.length = chains.length ∧
      ∀ v ∈ r, ∃ ch ∈ chains, v ∈ ch := by
  induction chains with
  | nil => exact ⟨[], rfl, rfl, by simp⟩
  | cons ch rest ih =>
    have hch : ch ≠ [] := h ch (List.mem_cons_self _ _)
    obtain ⟨r, hr1, hr2, hr3⟩ := ih (fun c hc => h c (List.mem_cons_of_mem _ hc))
    refine ⟨ch.getLast hch :: r, ?_, by simp [hr2], ?_⟩
    · simp only [allLastRows]
      rw [List.getLast?_eq_getLast ch hch, hr1]
    · intro v hv
      rcases List.mem_cons.mp hv with rfl | hv
      · exact ⟨ch, List.mem_cons_self _ _, List.getLast_mem hch⟩
      · obtain ⟨c2, hc2, hvc⟩ := hr3 v hv
        exact ⟨c2, List.mem_cons_of_mem _ hc2, hvc⟩

lemma allLastRows_none_of_mem : ∀ (chains : List Mat), ([] : Mat) ∈ chains →
    allLastRows chains = none := by
  intro chains
  induction chains with
  | nil => intro h; simp at h
  | cons ch rest ih =>
    intro h
    rcases List.mem_cons.mp h with heq | hm
    · subst heq
      cases h2 : allLastRows rest <;> simp [allLastRows, h2]
    · have hrest := ih hm
      simp only [allLastRows, hrest]
      cases hg : ch.getLast? <;> simp

/-! ### Counting facts behind the over-provisioning arguments -/

lemma mkRow_length (d : ℕ) (f : ℕ → Val) : (mkRow d f).length = d := by
  simp [mkRow]

lemma seq_total_ge (n c : ℕ) (hc : 1 ≤ c) : n ≤ c * ((n + c - 1) / c) := by
  rw [Nat.mul_comm]
  exact ceil_le_mul n c hc

lemma vec_total_ge (n t c : ℕ) (ht : 1 ≤ t) (hc : 1 ≤ c) :
    n ≤ c * ((((n * t + c - 1) / c) + t - 1) / t) := by
  have h1 : n * t ≤ ((n * t + c - 1) / c) * c := ceil_le_mul (n * t) c hc
  have h2 : (n * t + c - 1) / c ≤ ((((n * t + c - 1) / c) + t - 1) / t) * t :=
    ceil_le_mul _ t ht
  have h3 : n * t ≤ (c * ((((n * t + c - 1) / c) + t - 1) / t)) * t := by
    calc n * t ≤ ((n * t + c - 1) / c) * c := h1
      _ ≤ (((((n * t + c - 1) / c) + t - 1) / t) * t) * c :=
        Nat.mul_le_mul_right c h2
      _ = (c * ((((n * t + c - 1) / c) + t - 1) / t)) * t := by ring
  exact Nat.le_of_mul_le_mul_right h3 (by omega)

lemma pyro_rows_ge (n t c : ℕ) (hc : 1 ≤ c) :
    t * n + 1 ≤ c * ((t * n) / c + c) := by
  have h1 := Nat.div_add_mod (t * n) c
  have h2 : (t * n) % c < c := Nat.mod_lt _ (by omega)
  have hcc : c ≤ c * c := Nat.le_mul_of_pos_left c (by omega)
  have he : c * ((t * n) / c + c) = c * ((t * n) / c) + c * c := by ring
  omega

lemma pyro_total_ge (n t c : ℕ) (ht : 1 ≤ t) (hc : 1 ≤ c) :
    n ≤ (c * ((t * n) / c + c) + t - 1) / t := by
  have h := pyro_rows_ge n t c hc
  have h5 : (t * n + t) / t = n + 1 := by
    have e : t * n + t = t * (n + 1) := by ring
    rw [e, Nat.mul_div_cancel_left _ (by omega)]
  have h6 : (t * n + t) / t ≤ (c * ((t * n) / c + c) + t - 1) / t :=
    Nat.div_le_div_right (by omega)
  omega

/-! ### Shape facts about the chain families -/

lemma seqChains_spec (E : Oracles) (n : ℕ) (ip : Mat) (w : ℕ) :
    (seqChains E n ip w).length = ip.length ∧
    ∀ ch ∈ seqChains E n ip w,
      ch.length = (n + ip.length - 1) / ip.length ∧
      ∀ v ∈ ch, v.length = tensorWidth ip := by
  refine ⟨by simp [seqChains], ?_⟩
  intro ch hch
  simp only [seqChains, List.mem_map, List.mem_range] at hch
  obtain ⟨c, hc, rfl⟩ := hch
  refine ⟨by simp, ?_⟩
  intro v hv
  simp only [List.mem_map, List.mem_range] at hv
  obtain ⟨i, hi, rfl⟩ := hv
  exact mkRow_length _ _

lemma vecChains_spec (E : Oracles) (n : ℕ) (ip : Mat) (t w : ℕ) (ht : 1 ≤ t) :
    (vecChains E n ip t w).length = ip.length ∧
    ∀ ch ∈ vecChains E n ip t w,
      ch.length = ((n * t + ip.length - 1) / ip.length + t - 1) / t ∧
      ∀ v ∈ ch, v.length = tensorWidth ip := by
  refine ⟨by simp [vecChains], ?_⟩
  intro ch hch
  simp only [vecChains, List.mem_map, List.mem_range] at hch
  obtain ⟨c, hc, rfl⟩ := hch
  constructor
  · rw [sliceStep_length t ht]
    simp only [List.length_drop, List.length_map, List.length_range]
    rw [Nat.add_sub_cancel_left]
  · intro v hv
    have hv2 := List.drop_subset _ _ (sliceStep_mem t _ v hv)
    simp only [List.mem_map, List.mem_range] at hv2
    obtain ⟨s, hs, rfl⟩ := hv2
    exact mkRow_length _ _

/-! ### The slice-numpy backend: success, counts, and the assert -/

lemma slice_np_mcmc_eq (E : Oracles) (n : ℕ) (ip : Mat) (t w : ℕ) (vec : Bool) :
    slice_np_mcmc E n ip t w vec =
      match allLastRows (if vec then vecChains E n ip t w
          else seqChains E n ip w) with
      | none => .error .indexError
      | some lastRows =>
        if (((if vec then vecChains E n ip t w
            else seqChains E n ip w).flatten).take n).length = n then
          .ok ((((if vec then vecChains E n ip t w
            else seqChains E n ip w).flatten).take n), lastRows)
        else .error .assertionError := rfl

lemma slice_np_assemble (E : Oracles) (n : ℕ) (ip : Mat) (t w : ℕ) (vec : Bool)
    (K : ℕ) (hK1 : 1 ≤ K)
    (hchainsK : ∀ ch ∈ (if vec then vecChains E n ip t w else seqChains E n ip w),
      ch.length = K ∧ ∀ v ∈ ch, v.length = tensorWidth ip)
    (hlen : (if vec then vecChains E n ip t w else seqChains E n ip w).length
      = ip.length)
    (htot : n ≤ ip.length * K) :
    ∃ s r, slice_np_mcmc E n ip t w vec = .ok (s, r) ∧ s.length = n ∧
      r.length = ip.length ∧ (∀ v ∈ r, v.length = tensorWidth ip) ∧
      (∀ v ∈ s, v.length = tensorWidth ip) ∧
      s = (((if vec then vecChains E n ip t w
        else seqChains E n ip w).flatten).take n) := by
  set chains := if vec then vecChains E n ip t w else seqChains E n ip w with hch
  have hne : ∀ ch ∈ chains, ch ≠ [] := by
    intro ch h hnil
    have h1 := (hchainsK ch h).1
    rw [hnil] at h1
    simp at h1
    omega
  obtain ⟨r, hr1, hr2, hr3⟩ := allLastRows_some hne
  have hflat : chains.flatten.length = chains.length * K :=
    flatten_length_uniform K chains (fun x hx => (hchainsK x hx).1)
  have htk : ((chains.flatten).take n).length = n := by
    rw [List.length_take, hflat, hlen, inf_eq_min, min_eq_left htot]
  refine ⟨(chains.flatten).take n, r, ?_, htk, by rw [hr2, hlen], ?_, ?_, by rw [hch]⟩
  · rw [slice_np_mcmc_eq, ← hch, hr1]
    simp [htk]
  · intro v hv
    obtain ⟨ch, hc2, hvch⟩ := hr3 v hv
    exact (hchainsK ch hc2).2 v hvch
  · intro v hv
    have hvf := List.take_subset n _ hv
    obtain ⟨ch, hc2, hvch⟩ := List.mem_flatten.mp hvf
    exact (hchainsK ch hc2).2 v hvch

lemma slice_np_mcmc_ok (E : Oracles) (n : ℕ) (ip : Mat) (t w : ℕ) (vec : Bool)
    (ht : 1 ≤ t) (hc : 1 ≤ ip.length) (hn : 1 ≤ n) :
    ∃ s r, slice_np_mcmc E n ip t w vec = .ok (s, r) ∧ s.length = n ∧
      r.length = ip.length ∧ (∀ v ∈ r, v.length = tensorWidth ip) ∧
      (∀ v ∈ s, v.length = tensorWidth ip) ∧
      s = (((if vec then vecChains E n ip t w
        else seqChains E n ip w).flatten).take n) := by
  cases vec with
  | false =>
    obtain ⟨hlen, hrows⟩ := seqChains_spec E n ip w
    have hK1 : 1 ≤ (n + ip.length - 1) / ip.length := by
      rw [Nat.one_le_div_iff (by omega)]
      omega
    exact slice_np_assemble E n ip t w false _ hK1 hrows hlen
      (seq_total_ge n ip.length hc)
  | true =>
    obtain ⟨hlen, hrows⟩ := vecChains_spec E n ip t w ht
    have hM1 : 1 ≤ (n * t + ip.length - 1) / ip.length := by
      rw [Nat.one_le_div_iff (by omega)]
      have : 1 * 1 ≤ n * t := Nat.mul_le_mul hn ht
      omega
    have hK1 : 1 ≤ ((n * t + ip.length - 1) / ip.length + t - 1) / t := by
      rw [Nat.one_le_div_iff (by omega)]
      omega
    exact slice_np_assemble E n ip t w true _ hK1 hrows hlen
      (vec_total_ge n t ip.length ht hc)

lemma slice_np_mcmc_zero (E : Oracles) (ip : Mat) (t w : ℕ) (vec : Bool)
    (hc : 1 ≤ ip.length) :
    slice_np_mcmc E 0 ip t w vec = .error .indexError := by
  have hseq : ([] : Mat) ∈ seqChains E 0 ip w := by
    unfold seqChains
    refine List.mem_map.mpr ⟨0, List.mem_range.mpr (by omega), ?_⟩
    rw [show (0 + ip.length - 1) / ip.length = 0 from Nat.div_eq_of_lt (by omega)]
    simp
  have hvecm : ([] : Mat) ∈ vecChains E 0 ip t w := by
    unfold vecChains
    refine List.mem_map.mpr ⟨0, List.mem_range.mpr (by omega), ?_⟩
    rw [show (0 * t + ip.length - 1) / ip.length = 0 from by
      rw [Nat.zero_mul]; exact Nat.div_eq_of_lt (by omega)]
    rw [List.drop_eq_nil_of_le (by simp), sliceStep_nil]
  have hmem : ([] : Mat) ∈ (if vec then vecChains E 0 ip t w
      else seqChains E 0 ip w) := by
    cases vec
    · exact hseq
    · exact hvecm
  rw [slice_np_mcmc_eq, allLastRows_none_of_mem _ hmem]

lemma slice_np_mcmc_no_assert (E : Oracles) (n : ℕ) (ip : Mat) (t w : ℕ)
    (vec : Bool) (ht : 1 ≤ t) (hc : 1 ≤ ip.length) :
    slice_np_mcmc E n ip t w vec ≠ .error .assertionError := by
  rcases Nat.eq_zero_or_pos n with rfl | hn
  · rw [slice_np_mcmc_zero E ip t w vec hc]
    simp
  · obtain ⟨s, r, heq, _⟩ := slice_np_mcmc_ok E n ip t w vec ht hc hn
    rw [heq]
    simp

/-! ### The Pyro backend: success, counts, thinning -/

lemma pyro_mcmc_ok (E : Oracles) (n : ℕ) (ip : Mat) (m : String)
    (t w c : ℕ) (ht : 1 ≤ t) (hc : 1 ≤ c) :
    ∃ s, pyro_mcmc E n ip m t w c = .ok s ∧ s.length = n ∧
      (∀ j, j < n → s[j]? = some (mkRow (tensorWidth ip) (E.pyroDraw (j * t)))) ∧
      (∀ v ∈ s, v.length = tensorWidth ip) := by
  have hrowslen : ((List.range (c * ((t * n) / c + c))).map
      (fun i => mkRow (tensorWidth ip) (E.pyroDraw i))).length
      = c * ((t * n) / c + c) := by simp
  have hthin : (sliceStep t ((List.range (c * ((t * n) / c + c))).map
      (fun i => mkRow (tensorWidth ip) (E.pyroDraw i)))).length
      = (c * ((t * n) / c + c) + t - 1) / t := by
    rw [sliceStep_length t ht, hrowslen]
  have hge : n ≤ (c * ((t * n) / c + c) + t - 1) / t := pyro_total_ge n t c ht hc
  have hlen : ((sliceStep t ((List.range (c * ((t * n) / c + c))).map
      (fun i => mkRow (tensorWidth ip) (E.pyroDraw i)))).take n).length = n := by
    rw [List.length_take, hthin, inf_eq_min, min_eq_left hge]
  refine ⟨_, ?_, hlen, ?_, ?_⟩
  · unfold pyro_mcmc
    rw [if_pos hlen]
  · intro j hj
    rw [List.getElem?_take, if_pos hj, sliceStep_getElem t ht,
      List.getElem?_map]
    have hjt : j * t < c * ((t * n) / c + c) := by
      have h1 : j * t < n * t := (Nat.mul_lt_mul_right (by omega)).mpr hj
      have h2 := pyro_rows_ge n t c hc
      have h3 : n * t = t * n := Nat.mul_comm n t
      omega
    rw [List.getElem?_range hjt]
    rfl
  · intro v hv
    have hv2 := sliceStep_mem t _ v (List.take_subset n _ hv)
    simp only [List.mem_map, List.mem_range] at hv2
    obtain ⟨i, hi, rfl⟩ := hv2
    exact mkRow_length _ _

lemma pyro_mcmc_no_assert (E : Oracles) (n : ℕ) (ip : Mat) (m : String)
    (t w c : ℕ) (ht : 1 ≤ t) (hc : 1 ≤ c) :
    pyro_mcmc E n ip m t w c ≠ .error .assertionError := by
  obtain ⟨s, heq, _⟩ := pyro_mcmc_ok E n ip m t w c ht hc
  rw [heq]
  simp

/-! ### Dispatch-level lemmas -/

lemma except_map_ne_assert {α β : Type} (f : α → β) (x : Except PyError α)
    (h : x ≠ .error .assertionError) : x.map f ≠ .error .assertionError := by
  cases x with
  | error e =>
    simp only [Except.map]
    intro hc
    exact h (by rw [show e = PyError.assertionError from by injection hc])
  | ok a => simp [Except.map]

lemma sampleDispatch_slice_np_eq (E : Oracles) (t w c n : ℕ) (ip : Mat) :
    sampleDispatch E "slice_np" t w c n ip
      = (slice_np_mcmc E n ip t w false).map (fun r => (r.1, some r.2)) := rfl

lemma sampleDispatch_slice_np_vec_eq (E : Oracles) (t w c n : ℕ) (ip : Mat) :
    sampleDispatch E "slice_np_vectorized" t w c n ip
      = (slice_np_mcmc E n ip t w true).map (fun r => (r.1, some r.2)) := rfl

lemma sampleDispatch_pyro_eq (E : Oracles) (m : String) (t w c n : ℕ) (ip : Mat)
    (hm : m = "hmc" ∨ m = "nuts" ∨ m = "slice") :
    sampleDispatch E m t w c n ip
      = (pyro_mcmc E n ip m t w c).map (fun s => (s, none)) := by
  rcases hm with rfl | rfl | rfl <;> rfl

lemma sampleDispatch_ok_spec (E : Oracles) (method : String) (t w c n : ℕ)
    (ip : Mat)
    (hm : method = "slice_np" ∨ method = "slice_np_vectorized" ∨
      method = "hmc" ∨ method = "nuts" ∨ method = "slice")
    (ht : 1 ≤ t) (hc : 1 ≤ c) (hn : 1 ≤ n) (hip : ip.length = c) :
    ∃ rows written,
      sampleDispatch E method t w c n ip = .ok (rows, written) ∧
      rows.length = n ∧ (∀ v ∈ rows, v.length = tensorWidth ip) ∧
      ((method = "slice_np" ∨ method = "slice_np_vectorized") →
        ∃ M, written = some M ∧ M.length = c ∧
          ∀ v ∈ M, v.length = tensorWidth ip) ∧
      ((method = "hmc" ∨ method = "nuts" ∨ method = "slice") →
        written = none) := by
  have hcip : 1 ≤ ip.length := by omega
  rcases hm with rfl | rfl | rfl | rfl | rfl
  · rw [sampleDispatch_slice_np_eq]
    obtain ⟨s, r, heq, h2, h3, h4, h5, _⟩ :=
      slice_np_mcmc_ok E n ip t w false ht hcip hn
    rw [heq]
    exact ⟨s, some r, rfl, h2, h5, fun _ => ⟨r, rfl, by omega, h4⟩,
      by intro h; rcases h with h | h | h <;> simp at h⟩
  · rw [sampleDispatch_slice_np_vec_eq]
    obtain ⟨s, r, heq, h2, h3, h4, h5, _⟩ :=
      slice_np_mcmc_ok E n ip t w true ht hcip hn
    rw [heq]
    exact ⟨s, some r, rfl, h2, h5, fun _ => ⟨r, rfl, by omega, h4⟩,
      by intro h; rcases h with h | h | h <;> simp at h⟩
  · rw [sampleDispatch_pyro_eq E "hmc" t w c n ip (Or.inl rfl)]
    obtain ⟨s, heq, h2, h3, h4⟩ := pyro_mcmc_ok E n ip "hmc" t w c ht hc
    rw [heq]
    exact ⟨s, none, rfl, h2, h4,
      by intro h; rcases h with h | h <;> simp at h, fun _ => rfl⟩
  · rw [sampleDispatch_pyro_eq E "nuts" t w c n ip (Or.inr (Or.inl rfl))]
    obtain ⟨s, heq, h2, h3, h4⟩ := pyro_mcmc_ok E n ip "nuts" t w c ht hc
    rw [heq]
    exact ⟨s, none, rfl, h2, h4,
      by intro h; rcases h with h | h <;> simp at h, fun _ => rfl⟩
  · rw [sampleDispatch_pyro_eq E "slice" t w c n ip (Or.inr (Or.inr rfl))]
    obtain ⟨s, heq, h2, h3, h4⟩ := pyro_mcmc_ok E n ip "slice" t w c ht hc
    rw [heq]
    exact ⟨s, none, rfl, h2, h4,
      by intro h; rcases h with h | h <;> simp at h, fun _ => rfl⟩

lemma sampleDispatch_no_assert (E : Oracles) (method : String) (t w c n : ℕ)
    (ip : Mat)
    (hm : method = "slice_np" ∨ method = "slice_np_vectorized" ∨
      method = "hmc" ∨ method = "nuts" ∨ method = "slice")
    (ht : 1 ≤ t) (hc : 1 ≤ c) (hip : ip.length = c) :
    sampleDispatch E method t w c n ip ≠ .error .assertionError := by
  have hcip : 1 ≤ ip.length := by omega
  rcases hm with rfl | rfl | rfl | rfl | rfl
  · rw [sampleDispatch_slice_np_eq]
    exact except_map_ne_assert _ _ (slice_np_mcmc_no_assert E n ip t w false ht hcip)
  · rw [sampleDispatch_slice_np_vec_eq]
    exact except_map_ne_assert _ _ (slice_np_mcmc_no_assert E n ip t w true ht hcip)
  · rw [sampleDispatch_pyro_eq E "hmc" t w c n ip (Or.inl rfl)]
    exact except_map_ne_assert _ _ (pyro_mcmc_no_assert E n ip "hmc" t w c ht hc)
  · rw [sampleDispatch_pyro_eq E "nuts" t w c n ip (Or.inr (Or.inl rfl))]
    exact except_map_ne_assert _ _ (pyro_mcmc_no_assert E n ip "nuts" t w c ht hc)
  · rw [sampleDispatch_pyro_eq E "slice" t w c n ip (Or.inr (Or.inr rfl))]
    exact except_map_ne_assert _ _ (pyro_mcmc_no_assert E n ip "slice" t w c ht hc)

/-! ### Lemmas about `sample` -/

lemma sample_eq (p : MCMCPosterior) (E : Oracles) (S : List ℕ) :
    p.sample E S =
      match sampleDispatch E p.method p.thin p.warmup_steps p.num_chains S.prod
          ((List.range p.num_chains).map (fun i => callInitFn E .priorInit i)) with
      | .error e => .error e
      | .ok (ts, written) =>
        match reshape_trailing (ts.map E.tInv) S with
        | none => .error .runtimeError
        | some r => .ok (r, updateState p written) := rfl

lemma prior_ip_spec (E : Oracles) (c : ℕ) (hc : 1 ≤ c) :
    ((List.range c).map (fun i => callInitFn E .priorInit i)).length = c ∧
    tensorWidth ((List.range c).map (fun i => callInitFn E .priorInit i))
      = E.dim := by
  refine ⟨by simp, ?_⟩
  obtain ⟨c', rfl⟩ : ∃ c', c = c' + 1 := ⟨c - 1, by omega⟩
  rw [List.range_succ_eq_map]
  simp [tensorWidth, callInitFn, mkRow]

lemma reshape_rows (rows : Mat) (S : List ℕ) (d : ℕ)
    (hlen : rows.length = S.prod) (hw : ∀ v ∈ rows, v.length = d)
    (hn : 1 ≤ S.prod) :
    reshape_trailing rows S = some (S ++ [d], rows.flatten) := by
  have hf : rows.flatten.length = S.prod * d := by
    rw [flatten_length_uniform d rows hw, hlen]
  unfold reshape_trailing
  rw [if_pos ⟨by omega, by rw [hf]; exact Nat.mul_mod_right _ _⟩]
  rw [hf, Nat.mul_div_cancel_left _ (by omega)]

lemma sample_spec (p : MCMCPosterior) (E : Oracles) (S : List ℕ)
    (hm : p.method = "slice_np" ∨ p.method = "slice_np_vectorized" ∨
      p.method = "hmc" ∨ p.method = "nuts" ∨ p.method = "slice")
    (ht : 1 ≤ p.thin) (hc : 1 ≤ p.num_chains) (hn : 1 ≤ S.prod)
    (htr : ∀ v, (E.tInv v).length = v.length) :
    ∃ flat p', p.sample E S = .ok ((S ++ [E.dim], flat), p') ∧
      flat.length = S.prod * E.dim ∧
      ((p.method = "slice_np" ∨ p.method = "slice_np_vectorized") →
        ∃ M, p'.mcmc_init_params = some M ∧ M.length = p.num_chains ∧
          ∀ v ∈ M, v.length = E.dim) ∧
      ((p.method = "hmc" ∨ p.method = "nuts" ∨ p.method = "slice") →
        p' = p) := by
  obtain ⟨hiplen, hipw⟩ := prior_ip_spec E p.num_chains hc
  obtain ⟨rows, written, hd, hrn, hrw, hsl, hpy⟩ :=
    sampleDispatch_ok_spec E p.method p.thin p.warmup_steps p.num_chains S.prod
      ((List.range p.num_chains).map (fun i => callInitFn E .priorInit i))
      hm ht hc hn hiplen
  have hmapw : ∀ v ∈ rows.map E.tInv, v.length = E.dim := by
    intro v hv
    obtain ⟨u, hu, rfl⟩ := List.mem_map.mp hv
    rw [htr u, hrw u hu, hipw]
  have hmaplen : (rows.map E.tInv).length = S.prod := by simp [hrn]
  have hresh := reshape_rows (rows.map E.tInv) S E.dim hmaplen hmapw hn
  refine ⟨(rows.map E.tInv).flatten, updateState p written, ?_, ?_, ?_, ?_⟩
  · rw [sample_eq, hd]
    simp only [hresh]
  · rw [flatten_length_uniform E.dim _ hmapw, hmaplen]
  · intro hs
    obtain ⟨M, hw1, hw2, hw3⟩ := hsl hs
    subst hw1
    exact ⟨M, by simp [updateState], hw2, fun v hv => by rw [hw3 v hv, hipw]⟩
  · intro hp
    rw [hpy hp]
    rfl

lemma sample_nameError (p : MCMCPosterior) (E : Oracles) (S : List ℕ)
    (h1 : p.method ≠ "slice_np") (h2 : p.method ≠ "slice_np_vectorized")
    (h3 : p.method ≠ "hmc") (h4 : p.method ≠ "nuts") (h5 : p.method ≠ "slice") :
    p.sample E S = .error .nameError := by
  have hdisp : sampleDispatch E p.method p.thin p.warmup_steps p.num_chains S.prod
      ((List.range p.num_chains).map (fun i => callInitFn E .priorInit i))
      = .error .nameError := by
    unfold sampleDispatch
    rw [if_neg (by intro hor; rcases hor with h | h; exacts [h1 h, h2 h]),
      if_neg (by intro hor; rcases hor with h | h | h; exacts [h3 h, h4 h, h5 h])]
  rw [sample_eq, hdisp]

/-- The closed form of the vectorized chain family: chain `c`'s kept rows are
exactly the trajectory values at times `w*t + i*t`. -/
lemma vecChains_closed_form (E : Oracles) (n : ℕ) (ip : Mat) (t w : ℕ)
    (ht : 1 ≤ t) :
    vecChains E n ip t w = (List.range ip.length).map (fun c =>
      (List.range (((n * t + ip.length - 1) / ip.length + t - 1) / t)).map
        (fun i => mkRow (tensorWidth ip) (E.vecTraj c (w * t + i * t)))) := by
  unfold vecChains
  refine List.map_congr_left ?_
  intro c hc
  rw [sliceStep_drop_range_map t (w * t) _ ht]

/-! ### The retained state is the final timestep of each chain -/

lemma map_range_getLast {α : Type} (g : ℕ → α) (K : ℕ) (hK : 1 ≤ K) :
    ((List.range K).map g).getLast? = some (g (K - 1)) := by
  rw [List.getLast?_eq_getElem?]
  simp only [List.length_map, List.length_range]
  rw [List.getElem?_map, List.getElem?_range (by omega)]
  rfl

lemma allLastRows_map_range : ∀ (c : ℕ) (F : ℕ → Mat) (L : ℕ → Vec),
    (∀ i, i < c → (F i).getLast? = some (L i)) →
    allLastRows ((List.range c).map F) = some ((List.range c).map L) := by
  intro c
  induction c with
  | zero => intro F L h; rfl
  | succ c ih =>
    intro F L h
    simp only [List.range_succ_eq_map, List.map_cons, List.map_map]
    have h0 := h 0 (by omega)
    have ihr := ih (F ∘ Nat.succ) (L ∘ Nat.succ)
      (fun i hi => h (i + 1) (by omega))
    simp only [allLastRows, h0, ihr]

/-- The per-chain final states retained by the sequential branch: chain `ch`'s
last retained draw is stream element `warmup_steps + (K - 1)` where
`K = ceil(num_samples / num_chains)`. -/
lemma seqChains_last (E : Oracles) (n : ℕ) (ip : Mat) (w : ℕ)
    (hc : 1 ≤ ip.length) (hn : 1 ≤ n) :
    allLastRows (seqChains E n ip w)
      = some ((List.range ip.length).map (fun ch =>
          mkRow (tensorWidth ip)
            (E.seqGen ch (w + ((n + ip.length - 1) / ip.length - 1))))) := by
  have hK : 1 ≤ (n + ip.length - 1) / ip.length := by
    rw [Nat.one_le_div_iff (by omega)]
    omega
  unfold seqChains
  exact allLastRows_map_range ip.length _ _
    (fun i hi => map_range_getLast _ _ hK)

/-- The per-chain final states retained by the vectorized branch: chain `ch`'s
last kept row is trajectory step `warmup_steps * thin + (B - 1) * thin` where
`B = ceil(ceil(num_samples * thin / num_chains) / thin)`. -/
lemma vecChains_last (E : Oracles) (n : ℕ) (ip : Mat) (t w : ℕ)
    (ht : 1 ≤ t) (hc : 1 ≤ ip.length) (hn : 1 ≤ n) :
    allLastRows (vecChains E n ip t w)
      = some ((List.range ip.length).map (fun ch =>
          mkRow (tensorWidth ip) (E.vecTraj ch (w * t +
            (((n * t + ip.length - 1) / ip.length + t - 1) / t - 1) * t)))) := by
  have hM : 1 ≤ (n * t + ip.length - 1) / ip.length := by
    rw [Nat.one_le_div_iff (by omega)]
    have h1 : 1 * 1 ≤ n * t := Nat.mul_le_mul hn ht
    omega
  have hB : 1 ≤ ((n * t + ip.length - 1) / ip.length + t - 1) / t := by
    rw [Nat.one_le_div_iff (by omega)]
    omega
  rw [vecChains_closed_form E n ip t w ht]
  exact allLastRows_map_range ip.length _ _
    (fun i hi => map_range_getLast _ _ hB)

/-- `_slice_np_mcmc` stores exactly the value of `samples[:, -1, :]` computed
by `allLastRows` on the chain family it ran. -/
lemma slice_np_mcmc_retained (E : Oracles) (n : ℕ) (ip : Mat) (t w : ℕ)
    (vec : Bool) (R : Mat) (ht : 1 ≤ t) (hc : 1 ≤ ip.length) (hn : 1 ≤ n)
    (hR : allLastRows (if vec then vecChains E n ip t w else seqChains E n ip w)
      = some R) :
    ∃ s, slice_np_mcmc E n ip t w vec = .ok (s, R) ∧ s.length = n ∧
      ∀ v ∈ s, v.length = tensorWidth ip := by
  obtain ⟨s, r, heq, h2, _, _, h5, h6⟩ := slice_np_mcmc_ok E n ip t w vec ht hc hn
  have htk : ((((if vec then vecChains E n ip t w
      else seqChains E n ip w).flatten).take n)).length = n := by
    rw [← h6]
    exact h2
  have heq2 : slice_np_mcmc E n ip t w vec
      = .ok ((((if vec then vecChains E n ip t w
        else seqChains E n ip w).flatten).take n), R) := by
    rw [slice_np_mcmc_eq, hR]
    simp [htk]
  rw [heq] at heq2
  simp only [Except.ok.injEq, Prod.mk.injEq] at heq2
  exact ⟨s, by rw [heq, heq2.2], h2, h5⟩

/-- The facade tail after a successful dispatch: inverse transform, reshape,
state write-back. -/
lemma sample_of_dispatch (p : MCMCPosterior) (E : Oracles) (S : List ℕ)
    (rows : Mat) (written : Option Mat)
    (hd : sampleDispatch E p.method p.thin p.warmup_steps p.num_chains S.prod
      ((List.range p.num_chains).map (fun i => callInitFn E .priorInit i))
      = .ok (rows, written))
    (hrn : rows.length = S.prod)
    (hrw : ∀ v ∈ rows, v.length = E.dim)
    (htr : ∀ v, (E.tInv v).length = v.length)
    (hn : 1 ≤ S.prod) :
    ∃ flat, p.sample E S = .ok ((S ++ [E.dim], flat), updateState p written) ∧
      flat.length = S.prod * E.dim := by
  have hmapw : ∀ v ∈ rows.map E.tInv, v.length = E.dim := by
    intro v hv
    obtain ⟨u, hu, rfl⟩ := List.mem_map.mp hv
    rw [htr u, hrw u hu]
  have hmaplen : (rows.map E.tInv).length = S.prod := by simp [hrn]
  have hresh := reshape_rows (rows.map E.tInv) S E.dim hmaplen hmapw hn
  refine ⟨(rows.map E.tInv).flatten, ?_, ?_⟩
  · rw [sample_eq, hd]
    simp only [hresh]
  · rw [flatten_length_uniform E.dim _ hmapw, hmaplen]

/-! ### Claim theorems -/

/-- C1 (counterexample): for the empty sample shape `(0,)` the claim fails —
`sample` does not return a tensor of shape `(0, dim)` but raises the torch
`RuntimeError` of `reshape((0, -1))`, whose trailing `-1` cannot be inferred
from `0` elements. -/
theorem sample_empty_shape_errors :
    Ppyro.sample E0 [0] = .error .runtimeError := by rfl

/-- C1 (amended): for every sample shape `S` with a positive number of
requested samples and every valid configuration, `sample S` returns a tensor
of shape `S ++ [dim]`, and the flattened element count is `S.prod * dim`
(equivalently, the flattened number of returned sample rows is `S.prod`). -/
theorem sample_shape_contract (p : MCMCPosterior) (E : Oracles) (S : List ℕ)
    (hm : p.method = "slice_np" ∨ p.method = "slice_np_vectorized" ∨
      p.method = "hmc" ∨ p.method = "nuts" ∨ p.method = "slice")
    (ht : 1 ≤ p.thin) (hc : 1 ≤ p.num_chains) (hn : 1 ≤ S.prod)
    (htr : ∀ v, (E.tInv v).length = v.length) :
    ∃ flat p', p.sample E S = .ok ((S ++ [E.dim], flat), p') ∧
      flat.length = S.prod * E.dim := by
  obtain ⟨flat, p', h1, h2, _, _⟩ := sample_spec p E S hm ht hc hn htr
  exact ⟨flat, p', h1, h2⟩

/-- C1 (witness): the amended shape contract evaluated at a concrete
posterior, oracle family and shape `[2, 1]`. -/
theorem sample_shape_contract_witness :
    ∃ flat p', Pseq.sample E0 [2, 1] = .ok (([2, 1] ++ [E0.dim], flat), p') ∧
      flat.length = [2, 1].prod * E0.dim :=
  sample_shape_contract Pseq E0 [2, 1] (Or.inl rfl) (by decide) (by decide)
    (by decide) (fun v => rfl)

/-- C2: for every supported method (sequential slice, vectorized slice, and
the Pyro kernels `hmc`/`nuts`/`slice`) and every run configuration with
`thin ≥ 1`, `num_chains ≥ 1` and `warmup_steps ≥ 0`, the internal sampling
call never fails its row-count assertion, and for `num_samples ≥ 1` it
returns exactly `num_samples` rows before reshaping. -/
theorem internal_sample_count_invariant (E : Oracles) (method : String)
    (t w c n : ℕ) (ip : Mat)
    (hm : method = "slice_np" ∨ method = "slice_np_vectorized" ∨
      method = "hmc" ∨ method = "nuts" ∨ method = "slice")
    (ht : 1 ≤ t) (hw : 0 ≤ w) (hc : 1 ≤ c) (hip : ip.length = c) :
    sampleDispatch E method t w c n ip ≠ .error .assertionError ∧
    (1 ≤ n → ∃ rows written,
      sampleDispatch E method t w c n ip = .ok (rows, written) ∧
      rows.length = n) := by
  refine ⟨sampleDispatch_no_assert E method t w c n ip hm ht hc hip,
    fun hn => ?_⟩
  obtain ⟨rows, written, heq, h2, _⟩ :=
    sampleDispatch_ok_spec E method t w c n ip hm ht hc hn hip
  exact ⟨rows, written, heq, h2⟩

/-- C2 (witness): the count invariant evaluated at the sequential slice
backend with `thin=1`, `warmup=0`, one chain, two requested samples. -/
theorem internal_sample_count_invariant_witness :
    sampleDispatch E0 "slice_np" 1 0 1 2 [[0]] ≠ .error .assertionError ∧
    (1 ≤ 2 → ∃ rows written,
      sampleDispatch E0 "slice_np" 1 0 1 2 [[0]] = .ok (rows, written) ∧
      rows.length = 2) :=
  internal_sample_count_invariant E0 "slice_np" 1 0 1 2 [[0]]
    (Or.inl rfl) (by decide) (by decide) (by decide) rfl

/-- C3 (code bug): `sample` calls `_build_mcmc_init_fn` without forwarding
`init_strategy` (lines 171–173), so Python's default `"prior"` is always
used.  A posterior constructed with `init_strategy="latest_sample"` and no
prior sampling call therefore samples successfully with prior initialization
(third conjunct) and behaves exactly like the `"prior"`-configured posterior
(fourth conjunct), even though honouring the configured strategy would have
raised `AttributeError` (second conjunct). -/
theorem latest_sample_strategy_ignored :
    MCMCPosterior.init "slice_np" 1 0 1 "latest_sample" = .ok Pls ∧
    Pls.build_mcmc_init_fn "latest_sample" = .error .attributeError ∧
    (Pls.sample E0 [2]).map Prod.fst = .ok ([2, 1], [1, 1]) ∧
    (Pls.sample E0 [2]).map Prod.fst = (Ppr.sample E0 [2]).map Prod.fst := by
  exact ⟨rfl, rfl, rfl, rfl⟩

/-- C4: outside the prior's support the potential returns `-inf` (modelled
`⊥`); inside it returns the posterior model's log-probability unchanged. -/
theorem potential_outside_support_neg_inf (P : PosteriorPotential) (m : Mat)
    (i : ℕ) (hi : i < m.length) :
    (P.prior_support m[i] = false → (P.call (.batched m))[i]? = some ⊥) ∧
    (P.prior_support m[i] = true →
      (P.call (.batched m))[i]? =
        some ((P.log_prob m[i] P.x_o : Val) : WithBot Val)) := by
  have hcall : (P.call (.batched m))[i]? = some (if P.prior_support m[i]
      then ((P.log_prob m[i] P.x_o : Val) : WithBot Val) else ⊥) := by
    unfold PosteriorPotential.call ensure_theta_batched
    rw [List.getElem?_map, List.getElem?_eq_getElem hi]
    rfl
  constructor <;> intro h <;> simp [hcall, h]

/-- C4 (witness): the support masking evaluated at a concrete potential and a
batch whose second row lies outside the support. -/
theorem potential_outside_support_neg_inf_witness :
    (PP0.prior_support ([[1], [2]] : Mat)[1] = false →
      (PP0.call (.batched [[1], [2]]))[1]? = some ⊥) ∧
    (PP0.prior_support ([[1], [2]] : Mat)[1] = true →
      (PP0.call (.batched [[1], [2]]))[1]? =
        some ((PP0.log_prob ([[1], [2]] : Mat)[1] PP0.x_o : Val) : WithBot Val)) :=
  potential_outside_support_neg_inf PP0 [[1], [2]] 1 (by decide)

/-- C5 (counterexample): constructing a posterior with the unknown method
identifier `"foo"` does not succeed — `__init__` raises
`NotImplementedError`, so the failure is not deferred to `sample`. -/
theorem unknown_method_fails_at_construction :
    MCMCPosterior.init "foo" 10 10 1 "prior" = .error .notImplementedError := by
  rfl

/-- C5 (amended): an unknown identifier containing `"slice_np"` as a
substring passes construction and fails with `NameError` at dispatch inside
`sample`; every other unknown identifier fails at construction with
`NotImplementedError`. -/
theorem method_error_timing (method : String) (t w c : ℕ) (istrat : String)
    (E : Oracles) (S : List ℕ) :
    (strContainsSub "slice_np" method = true → method ≠ "slice_np" →
      method ≠ "slice_np_vectorized" →
      MCMCPosterior.init method t w c istrat
          = .ok ⟨method, t, w, c, istrat, none, none⟩ ∧
        MCMCPosterior.sample ⟨method, t, w, c, istrat, none, none⟩ E S
          = .error .nameError) ∧
    (method ≠ "slice" → method ≠ "hmc" → method ≠ "nuts" →
      strContainsSub "slice_np" method = false →
      MCMCPosterior.init method t w c istrat = .error .notImplementedError) := by
  constructor
  · intro hsub h1 h2
    have hns : method ≠ "slice" := by
      intro h
      rw [h] at hsub
      exact absurd hsub (by decide)
    have hnh : method ≠ "hmc" := by
      intro h
      rw [h] at hsub
      exact absurd hsub (by decide)
    have hnn : method ≠ "nuts" := by
      intro h
      rw [h] at hsub
      exact absurd hsub (by decide)
    constructor
    · unfold MCMCPosterior.init
      rw [if_neg hns,
        if_neg (by intro hor; rcases hor with h | h; exacts [hnh h, hnn h]),
        if_pos hsub]
    · exact sample_nameError _ E S h1 h2 hnh hnn hns
  · intro h1 h2 h3 h4
    unfold MCMCPosterior.init
    rw [if_neg h1,
      if_neg (by intro hor; rcases hor with h | h; exacts [h2 h, h3 h]),
      if_neg (by simp [h4])]

/-- C5 (witness): the amended timing behaviour at the concrete identifiers
`"slice_npx"` (deferred `NameError` in `sample`) and `"bar"` (immediate
`NotImplementedError` at construction). -/
theorem method_error_timing_witness :
    (MCMCPosterior.init "slice_npx" 10 5 1 "prior"
        = .ok ⟨"slice_npx", 10, 5, 1, "prior", none, none⟩ ∧
      MCMCPosterior.sample ⟨"slice_npx", 10, 5, 1, "prior", none, none⟩ E0 [1]
        = .error .nameError) ∧
    MCMCPosterior.init "bar" 10 5 1 "prior" = .error .notImplementedError :=
  ⟨(method_error_timing "slice_npx" 10 5 1 "prior" E0 [1]).1 (by decide)
      (by decide) (by decide),
    (method_error_timing "bar" 10 5 1 "prior" E0 [1]).2 (by decide) (by decide)
      (by decide) (by decide)⟩

/-- C6: the external kernel adapter requests exactly
`(thin * num_samples) / num_chains + num_chains` draws per chain; the
chain-flattened result, thinned by `thin`, always retains at least
`num_samples` rows (first conjunct), and the adapter returns exactly
`num_samples` rows, row `j` being the `(j * thin)`-th flattened draw. -/
theorem pyro_overprovision_contract (E : Oracles) (n t w c : ℕ) (ip : Mat)
    (m : String) (ht : 1 ≤ t) (hc : 1 ≤ c) :
    n ≤ (sliceStep t ((List.range (c * ((t * n) / c + c))).map
        (fun i => mkRow (tensorWidth ip) (E.pyroDraw i)))).length ∧
    ∃ s, pyro_mcmc E n ip m t w c = .ok s ∧ s.length = n ∧
      ∀ j, j < n → s[j]? = some (mkRow (tensorWidth ip) (E.pyroDraw (j * t))) := by
  obtain ⟨s, h1, h2, h3, _⟩ := pyro_mcmc_ok E n ip m t w c ht hc
  refine ⟨?_, s, h1, h2, h3⟩
  rw [sliceStep_length t ht]
  simp only [List.length_map, List.length_range]
  exact pyro_total_ge n t c ht hc

/-- C6 (witness): the over-provisioning contract at `num_samples=3`,
`thin=2`, `num_chains=2`. -/
theorem pyro_overprovision_contract_witness :
    (3 : ℕ) ≤ (sliceStep 2 ((List.range (2 * ((2 * 3) / 2 + 2))).map
        (fun i => mkRow (tensorWidth ([[0]] : Mat)) (E0.pyroDraw i)))).length ∧
    ∃ s, pyro_mcmc E0 3 [[0]] "slice" 2 0 2 = .ok s ∧ s.length = 3 ∧
      ∀ j, j < 3 →
        s[j]? = some (mkRow (tensorWidth ([[0]] : Mat)) (E0.pyroDraw (j * 2))) :=
  pyro_overprovision_contract E0 3 2 0 2 [[0]] "slice" (by decide) (by decide)

/-- C7: the vectorized slice path runs each chain for
`warmup_steps * thin + ceil(num_samples * thin / num_chains)` steps; the kept
rows of chain `ch` are exactly the trajectory values at times
`warmup_steps * thin + i * thin` (warmup prefix discarded, every `thin`-th
step kept), flattened chain-major and truncated to exactly `num_samples`
rows. -/
theorem vectorized_slice_schedule (E : Oracles) (n t w : ℕ) (ip : Mat)
    (ht : 1 ≤ t) (hc : 1 ≤ ip.length) (hn : 1 ≤ n) :
    ∃ s r, slice_np_mcmc E n ip t w true = .ok (s, r) ∧ s.length = n ∧
      s = (((List.range ip.length).map (fun ch =>
        (List.range (((n * t + ip.length - 1) / ip.length + t - 1) / t)).map
          (fun i => mkRow (tensorWidth ip)
            (E.vecTraj ch (w * t + i * t))))).flatten).take n := by
  obtain ⟨s, r, h1, h2, _, _, _, h6⟩ := slice_np_mcmc_ok E n ip t w true ht hc hn
  rw [if_pos rfl, vecChains_closed_form E n ip t w ht] at h6
  exact ⟨s, r, h1, h2, h6⟩

/-- C7 (witness): the vectorized schedule at `num_samples=2`, `thin=2`,
`warmup_steps=1`, one chain. -/
theorem vectorized_slice_schedule_witness :
    ∃ s r, slice_np_mcmc E0 2 [[0]] 2 1 true = .ok (s, r) ∧ s.length = 2 ∧
      s = (((List.range ([[0]] : Mat).length).map (fun ch =>
        (List.range (((2 * 2 + ([[0]] : Mat).length - 1) / ([[0]] : Mat).length
            + 2 - 1) / 2)).map
          (fun i => mkRow (tensorWidth ([[0]] : Mat))
            (E0.vecTraj ch (1 * 2 + i * 2))))).flatten).take 2 :=
  vectorized_slice_schedule E0 2 2 1 [[0]] (by decide) (by decide) (by decide)

/-- C8 (counterexample): after sampling through the Pyro `"slice"` backend no
per-chain final state is retained — `_mcmc_init_params` is still absent,
refuting the claim that retention happens for every backend. -/
theorem pyro_does_not_retain_state :
    (Ppyro.sample E0 [1]).map (fun r => r.2.mcmc_init_params) = .ok none := by
  rfl

/-- C8 (amended): only the slice-numpy backends retain the final timestep of
each chain as `_mcmc_init_params` — for the sequential backend the retained
matrix is, per chain `ch`, the last retained draw (stream element
`warmup_steps + (ceil(n/c) - 1)`); for the vectorized backend it is the last
kept trajectory step (`warmup_steps * thin + (B - 1) * thin` with
`B = ceil(ceil(n * thin / c) / thin)`); its shape is `num_chains × dim`.  The
Pyro backends leave the retained state untouched. -/
theorem retention_only_slice_np (p : MCMCPosterior) (E : Oracles) (S : List ℕ)
    (ht : 1 ≤ p.thin) (hc : 1 ≤ p.num_chains) (hn : 1 ≤ S.prod)
    (htr : ∀ v, (E.tInv v).length = v.length) :
    (p.method = "slice_np" →
      ∃ flat p', p.sample E S = .ok ((S ++ [E.dim], flat), p') ∧
        p'.mcmc_init_params = some ((List.range p.num_chains).map (fun ch =>
          mkRow E.dim (E.seqGen ch (p.warmup_steps +
            ((S.prod + p.num_chains - 1) / p.num_chains - 1))))) ∧
        ∃ M, p'.mcmc_init_params = some M ∧ M.length = p.num_chains ∧
          ∀ v ∈ M, v.length = E.dim) ∧
    (p.method = "slice_np_vectorized" →
      ∃ flat p', p.sample E S = .ok ((S ++ [E.dim], flat), p') ∧
        p'.mcmc_init_params = some ((List.range p.num_chains).map (fun ch =>
          mkRow E.dim (E.vecTraj ch (p.warmup_steps * p.thin +
            (((S.prod * p.thin + p.num_chains - 1) / p.num_chains + p.thin - 1)
              / p.thin - 1) * p.thin)))) ∧
        ∃ M, p'.mcmc_init_params = some M ∧ M.length = p.num_chains ∧
          ∀ v ∈ M, v.length = E.dim) ∧
    ((p.method = "hmc" ∨ p.method = "nuts" ∨ p.method = "slice") →
      ∃ flat p', p.sample E S = .ok ((S ++ [E.dim], flat), p') ∧
        p'.mcmc_init_params = p.mcmc_init_params) := by
  obtain ⟨hiplen, hipw⟩ := prior_ip_spec E p.num_chains hc
  have hcip : 1 ≤ ((List.range p.num_chains).map
      (fun i => callInitFn E .priorInit i)).length := by
    rw [hiplen]
    exact hc
  refine ⟨?_, ?_, ?_⟩
  · intro hsn
    have hlast := seqChains_last E S.prod
      ((List.range p.num_chains).map (fun i => callInitFn E .priorInit i))
      p.warmup_steps hcip hn
    rw [hiplen, hipw] at hlast
    obtain ⟨R, hlastR, hRval⟩ : ∃ R, allLastRows (seqChains E S.prod
        ((List.range p.num_chains).map (fun i => callInitFn E .priorInit i))
        p.warmup_steps) = some R ∧
        R = (List.range p.num_chains).map (fun ch =>
          mkRow E.dim (E.seqGen ch (p.warmup_steps +
            ((S.prod + p.num_chains - 1) / p.num_chains - 1)))) :=
      ⟨_, hlast, rfl⟩
    obtain ⟨s, heq, hslen, hsw⟩ := slice_np_mcmc_retained E S.prod
      ((List.range p.num_chains).map (fun i => callInitFn E .priorInit i))
      p.thin p.warmup_steps false R ht hcip hn hlastR
    have hsw' : ∀ v ∈ s, v.length = E.dim := fun v hv => by
      rw [hsw v hv]
      exact hipw
    have hd : sampleDispatch E p.method p.thin p.warmup_steps p.num_chains
        S.prod ((List.range p.num_chains).map (fun i => callInitFn E .priorInit i))
        = .ok (s, some R) := by
      rw [hsn, sampleDispatch_slice_np_eq, heq]
      rfl
    obtain ⟨flat, hfl, _⟩ := sample_of_dispatch p E S s (some R) hd hslen hsw' htr hn
    refine ⟨flat, updateState p (some R), hfl, by simp [updateState, hRval],
      R, by simp [updateState], by rw [hRval]; simp, ?_⟩
    intro v hv
    rw [hRval] at hv
    obtain ⟨ch, hch, rfl⟩ := List.mem_map.mp hv
    exact mkRow_length _ _
  · intro hsv
    have hlast := vecChains_last E S.prod
      ((List.range p.num_chains).map (fun i => callInitFn E .priorInit i))
      p.thin p.warmup_steps ht hcip hn
    rw [hiplen, hipw] at hlast
    obtain ⟨R, hlastR, hRval⟩ : ∃ R, allLastRows (vecChains E S.prod
        ((List.range p.num_chains).map (fun i => callInitFn E .priorInit i))
        p.thin p.warmup_steps) = some R ∧
        R = (List.range p.num_chains).map (fun ch =>
          mkRow E.dim (E.vecTraj ch (p.warmup_steps * p.thin +
            (((S.prod * p.thin + p.num_chains - 1) / p.num_chains + p.thin - 1)
              / p.thin - 1) * p.thin))) :=
      ⟨_, hlast, rfl⟩
    obtain ⟨s, heq, hslen, hsw⟩ := slice_np_mcmc_retained E S.prod
      ((List.range p.num_chains).map (fun i => callInitFn E .priorInit i))
      p.thin p.warmup_steps true R ht hcip hn hlastR
    have hsw' : ∀ v ∈ s, v.length = E.dim := fun v hv => by
      rw [hsw v hv]
      exact hipw
    have hd : sampleDispatch E p.method p.thin p.warmup_steps p.num_chains
        S.prod ((List.range p.num_chains).map (fun i => callInitFn E .priorInit i))
        = .ok (s, some R) := by
      rw [hsv, sampleDispatch_slice_np_vec_eq, heq]
      rfl
    obtain ⟨flat, hfl, _⟩ := sample_of_dispatch p E S s (some R) hd hslen hsw' htr hn
    refine ⟨flat, updateState p (some R), hfl, by simp [updateState, hRval],
      R, by simp [updateState], by rw [hRval]; simp, ?_⟩
    intro v hv
    rw [hRval] at hv
    obtain ⟨ch, hch, rfl⟩ := List.mem_map.mp hv
    exact mkRow_length _ _
  · intro hp
    obtain ⟨flat, p', h1, _, _, h4⟩ := sample_spec p E S
      (by rcases hp with h | h | h
          exacts [Or.inr (Or.inr (Or.inl h)), Or.inr (Or.inr (Or.inr (Or.inl h))),
            Or.inr (Or.inr (Or.inr (Or.inr h)))]) ht hc hn htr
    exact ⟨flat, p', h1, by rw [h4 hp]⟩

/-- C8 (witness): the retained state after a sequential slice call is the
final retained draw of each chain, evaluated at a concrete posterior. -/
theorem retention_only_slice_np_witness :
    ∃ flat p', Pseq.sample E0 [1] = .ok (([1] ++ [E0.dim], flat), p') ∧
      p'.mcmc_init_params = some ((List.range Pseq.num_chains).map (fun ch =>
        mkRow E0.dim (E0.seqGen ch (Pseq.warmup_steps +
          (([1].prod + Pseq.num_chains - 1) / Pseq.num_chains - 1))))) ∧
      ∃ M, p'.mcmc_init_params = some M ∧ M.length = Pseq.num_chains ∧
        ∀ v ∈ M, v.length = E0.dim :=
  (retention_only_slice_np Pseq E0 [1] (by decide) (by decide) (by decide)
    (fun v => rfl)).1 rfl

/-- C9 (code bug): `set_mcmc_method` writes `_mcmc_method`, but `sample`
dispatches on `self.method`, so the setter has no effect: after switching a
sequential-slice posterior to `"slice_np_vectorized"` the samples are
unchanged (first conjunct) and differ from those of a posterior genuinely
constructed with the vectorized backend (second conjunct). -/
theorem set_mcmc_method_no_effect :
    ((Pseq.set_mcmc_method "slice_np_vectorized").sample E0 [2]).map Prod.fst
        = (Pseq.sample E0 [2]).map Prod.fst ∧
    ((Pseq.set_mcmc_method "slice_np_vectorized").sample E0 [2]).map Prod.fst
        ≠ (Pvec.sample E0 [2]).map Prod.fst := by
  exact ⟨rfl, by decide⟩

/-- C10: the potential's call interface batches a 1-D θ before evaluation, so
calling it on an unbatched θ agrees with calling it on the `(1, dim)`-batched
θ. -/
theorem potential_accepts_unbatched (P : PosteriorPotential) (v : Vec) :
    P.call (.unbatched v) = P.call (.batched [v]) := rfl

end SbiVerify
